import Mathlib

/-!
Verification of the gitmeup command pipeline (src/gitmeup/cli.py).

The Python functions `extract_bash_block`, `parse_commands`, `run_commands`
and `build_user_prompt` are shallowly embedded as executable Lean
definitions.  The Python string primitives they rely on
(`str.splitlines`, `str.strip`, `str.startswith`, `str.lower`, slicing,
`str.join`, `shlex.split`, `shlex.quote`) are modelled at the level of
`List Char`, following the CPython implementations.
-/

/-- Characters of Python's `str.isspace` / bare `str.strip` whitespace set. -/
def pyIsSpace (c : Char) : Bool :=
  c = '\u0009' || c = '\u000a' || c = '\u000b' || c = '\u000c' || c = '\u000d' ||
  c = '\u001c' || c = '\u001d' || c = '\u001e' || c = '\u001f' || c = '\u0020' ||
  c = '\u0085' || c = '\u00a0' || c = '\u1680' || c = '\u2000' || c = '\u2001' ||
  c = '\u2002' || c = '\u2003' || c = '\u2004' || c = '\u2005' || c = '\u2006' ||
  c = '\u2007' || c = '\u2008' || c = '\u2009' || c = '\u200a' || c = '\u2028' ||
  c = '\u2029' || c = '\u202f' || c = '\u205f' || c = '\u3000'

/-- Line-break characters of Python's `str.splitlines` (besides "\r\n"). -/
def pyIsLineBreak (c : Char) : Bool :=
  c = '\u000a' || c = '\u000b' || c = '\u000c' || c = '\u000d' || c = '\u001c' ||
  c = '\u001d' || c = '\u001e' || c = '\u0085' || c = '\u2028' || c = '\u2029'

/-- Model of Python `str.strip()`: drop trailing, then leading whitespace. -/
def pyStripList (l : List Char) : List Char :=
  ((l.reverse.dropWhile pyIsSpace).reverse).dropWhile pyIsSpace

/-- Model of Python `str.strip()` on strings. -/
def pyStrip (s : String) : String :=
  String.mk (pyStripList s.data)

/-- Helper for `pySplitlines`, accumulating the current line. -/
def splitlinesAux : List Char → List Char → List String
  | [], cur => if cur.isEmpty then [] else [String.mk cur]
  | '\r' :: '\n' :: rest, cur => String.mk cur :: splitlinesAux rest []
  | c :: rest, cur =>
    if pyIsLineBreak c then String.mk cur :: splitlinesAux rest []
    else splitlinesAux rest (cur ++ [c])

/-- Model of Python `str.splitlines()`. -/
def pySplitlines (s : String) : List String :=
  splitlinesAux s.data []

/-- Model of Python `sep.join(parts)`. -/
def pyJoin (sep : String) : List String → String
  | [] => ""
  | [x] => x
  | x :: y :: xs => x ++ sep ++ pyJoin sep (y :: xs)

/-- Boolean list-prefix test, used to model `str.startswith`. -/
def listPre : List Char → List Char → Bool
  | [], _ => true
  | _ :: _, [] => false
  | a :: as, b :: bs => a = b && listPre as bs

/-- Model of Python `s.startswith(p)`. -/
def pyStartsWith (s p : String) : Bool :=
  listPre p.data s.data

/-- Model of Python slicing `s[n:]` (by code points). -/
def pyDrop (s : String) (n : Nat) : String :=
  String.mk (s.data.drop n)

/-- Model of Python `str.lower()` (ASCII case mapping; the only tags the
extractor compares against are pure ASCII). -/
def pyLower (s : String) : String :=
  String.mk (s.data.map Char.toLower)

/-- The tag test of `extract_bash_block`: the text after the opening
fence marker, stripped, must be empty or case-insensitively one of
bash/sh/shell. -/
def fenceLangOk (line : String) : Bool :=
  let lang := pyStrip (pyDrop (pyStrip line) 3)
  if lang = "" then true
  else if pyLower lang = "bash" then true
  else if pyLower lang = "sh" then true
  else if pyLower lang = "shell" then true
  else false

/-- The line loop of `extract_bash_block` (cli.py:157-169): state is the
`in_block` flag, the `lang_ok` flag and the captured lines. -/
def extractGo : List String → Bool → Bool → List String → String
  | [], _, _, acc => pyStrip (pyJoin "\n" acc)
  | line :: rest, inB, langOk, acc =>
    if pyStartsWith line "```" then
      if inB then pyStrip (pyJoin "\n" acc)
      else extractGo rest true (fenceLangOk line) acc
    else if inB && langOk then extractGo rest inB langOk (acc ++ [line])
    else extractGo rest inB langOk acc

/-- Embedding of `extract_bash_block` (cli.py:151-170). -/
def extract_bash_block (text : String) : String :=
  extractGo (pySplitlines text) false false []

/-- Lexer states of CPython `shlex.read_token` in POSIX mode with
`whitespace_split = True` and no commenters or punctuation chars
(the configuration of `shlex.split`). -/
inductive SState where
  | between
  | word
  | inSingle
  | inDouble
  | escOutside
  | escInDouble
deriving DecidableEq, Repr

/-- The two `ValueError`s `shlex.read_token` can raise. -/
inductive ShlexErr where
  | noClosingQuote
  | noEscapedChar
deriving DecidableEq, Repr

deriving instance DecidableEq for Except

/-- The whitespace set of `shlex` (`' \t\r\n'`). -/
def isShlexWS (c : Char) : Bool :=
  c = ' ' || c = '\t' || c = '\r' || c = '\n'

/-- One-pass model of repeatedly calling `shlex.read_token` on a POSIX
lexer with `whitespace_split` on: `tok` is the token built so far,
`quoted` the per-token quoted flag, `acc` the already emitted tokens in
reverse order. -/
def shlexRun : List Char → SState → List Char → Bool → List (List Char) →
    Except ShlexErr (List (List Char))
  | [], .between, _, _, acc => .ok acc.reverse
  | [], .word, tok, quoted, acc =>
    if tok ≠ [] ∨ quoted then .ok (acc.reverse ++ [tok]) else .ok acc.reverse
  | [], .inSingle, _, _, _ => .error .noClosingQuote
  | [], .inDouble, _, _, _ => .error .noClosingQuote
  | [], .escOutside, _, _, _ => .error .noEscapedChar
  | [], .escInDouble, _, _, _ => .error .noEscapedChar
  | c :: cs, .between, _, _, acc =>
    if isShlexWS c then shlexRun cs .between [] false acc
    else if c = '\\' then shlexRun cs .escOutside [] false acc
    else if c = '\'' then shlexRun cs .inSingle [] false acc
    else if c = '"' then shlexRun cs .inDouble [] false acc
    else shlexRun cs .word [c] false acc
  | c :: cs, .word, tok, quoted, acc =>
    if isShlexWS c then
      if tok ≠ [] ∨ quoted then shlexRun cs .between [] false (tok :: acc)
      else shlexRun cs .between [] false acc
    else if c = '\'' then shlexRun cs .inSingle tok quoted acc
    else if c = '"' then shlexRun cs .inDouble tok quoted acc
    else if c = '\\' then shlexRun cs .escOutside tok quoted acc
    else shlexRun cs .word (tok ++ [c]) quoted acc
  | c :: cs, .inSingle, tok, _, acc =>
    if c = '\'' then shlexRun cs .word tok true acc
    else shlexRun cs .inSingle (tok ++ [c]) true acc
  | c :: cs, .inDouble, tok, _, acc =>
    if c = '"' then shlexRun cs .word tok true acc
    else if c = '\\' then shlexRun cs .escInDouble tok true acc
    else shlexRun cs .inDouble (tok ++ [c]) true acc
  | c :: cs, .escOutside, tok, quoted, acc =>
    shlexRun cs .word (tok ++ [c]) quoted acc
  | c :: cs, .escInDouble, tok, quoted, acc =>
    if c = '\\' ∨ c = '"' then shlexRun cs .inDouble (tok ++ [c]) quoted acc
    else shlexRun cs .inDouble (tok ++ ['\\', c]) quoted acc

/-- Model of Python `shlex.split(s)` (POSIX mode, comments off). -/
def shlexSplit (s : String) : Except ShlexErr (List String) :=
  match shlexRun s.data .between [] false [] with
  | .error e => .error e
  | .ok toks => .ok (toks.map fun t => String.mk t)

/-- Safe characters of `shlex.quote`: ASCII letters, digits, and the
punctuation `_ @ % + = : , . / -`. -/
def quoteSafe (c : Char) : Bool :=
  c.isAlpha || c.isDigit || c = '_' || c = '@' || c = '%' || c = '+' ||
  c = '=' || c = ':' || c = ',' || c = '.' || c = '/' || c = '-'

/-- The body of the single-quoted form of `shlex.quote`: each `'` is
replaced by the five characters of `'"'"'`. -/
def escInner : List Char → List Char
  | [] => []
  | c :: cs =>
    (if c = '\'' then ['\'', '"', '\'', '"', '\''] else [c]) ++ escInner cs

/-- Character-list form of `shlex.quote`. -/
def quoteData (t : List Char) : List Char :=
  if t = [] then ['\'', '\'']
  else if t.all quoteSafe then t
  else '\'' :: (escInner t ++ ['\''])

/-- Model of Python `shlex.quote(s)`. -/
def shlexQuote (s : String) : String :=
  String.mk (quoteData s.data)

/-- Line loop of `parse_commands` (cli.py:175-179): strip each line, skip
empty lines, tokenize the rest; a tokenizer error aborts the whole parse
(the `ValueError` from `shlex.split` propagates out of `parse_commands`). -/
def parseGo : List String → List (List String) → Except ShlexErr (List (List String))
  | [], acc => .ok acc.reverse
  | raw :: rest, acc =>
    let line := pyStrip raw
    if line = "" then parseGo rest acc
    else
      match shlexSplit line with
      | .error e => .error e
      | .ok cmd => parseGo rest (cmd :: acc)

/-- Embedding of `parse_commands` (cli.py:173-180). -/
def parse_commands (block : String) : Except ShlexErr (List (List String)) :=
  parseGo (pySplitlines block) []

/-- The quoted rendering printed by `run_commands`:
`" ".join(shlex.quote(part) for part in cmd)`. -/
def renderCmd (cmd : List String) : String :=
  pyJoin " " (cmd.map shlexQuote)

/-- Observable outcome of `run_commands`: the strings printed (one entry
per `print` call, in order), the argument vectors passed to
`subprocess.run`, in order, and the `sys.exit` status if any. -/
structure ExecResult where
  printed : List String
  invoked : List (List String)
  exitStatus : Option Int
deriving DecidableEq, Repr

/-- Apply-mode loop of `run_commands` (cli.py:193-201).  `ec i cmd` is the
exit code the i-th invoked process would return. -/
def runLoop : List (List String) → Nat → (Nat → List String → Int) →
    List String × List (List String) × Option Int
  | [], _, _ => (["\nCommands executed.\n"], [], none)
  | c :: rest, i, ec =>
    let code := ec i c
    if code = 0 then
      let r := runLoop rest (i + 1) ec
      (("+ " ++ renderCmd c) :: r.1, c :: r.2.1, r.2.2)
    else
      ([("+ " ++ renderCmd c),
        "Command failed with exit code " ++ toString code ++ ". Aborting."],
       [c], some code)

/-- Embedding of `run_commands` (cli.py:183-203). -/
def run_commands (commands : List (List String)) (apply : Bool)
    (ec : Nat → List String → Int) : ExecResult :=
  let header := "Proposed commands:\n" :: commands.map renderCmd
  if apply then
    let r := runLoop commands 0 ec
    { printed := header ++ ["\nExecuting commands...\n"] ++ r.1,
      invoked := r.2.1,
      exitStatus := r.2.2 }
  else
    { printed := header ++
        ["\nDry run: not executing commands. Re-run with --apply to execute."],
      invoked := [],
      exitStatus := none }

/-- Embedding of `build_user_prompt` (cli.py:121-135).  Python's
`blob.strip() or placeholder` is the stripped blob when non-empty and the
placeholder otherwise. -/
def build_user_prompt (diff_stat status diff : String) : String :=
  pyJoin "\n" [
    "# git diff --stat",
    (if pyStrip diff_stat = "" then "(no diff stat)" else pyStrip diff_stat),
    "",
    "# git status --short",
    (if pyStrip status = "" then "(no status)" else pyStrip status),
    "",
    "# git diff (images/binaries may be excluded)",
    (if pyStrip diff = "" then "(no textual diff)" else pyStrip diff),
    "",
    "# TASK",
    "Based on the changes above, propose git add/rm/mv and git commit commands as per the instructions."]

/-- Outcome of the tail of `main` (cli.py:250-261), from the raw model
output onwards.  `extractFailure raw` stands for printing the failure
message and the raw output and exiting with status 1; `parseFailure`
stands for the uncaught `ValueError` from `shlex.split` (a Python
process dies with status 1 on an uncaught exception). -/
inductive MainResult where
  | extractFailure (raw : String)
  | parseFailure (e : ShlexErr)
  | executed (r : ExecResult)
deriving DecidableEq, Repr

/-- Embedding of cli.py:250-261: extract, test for emptiness, parse, run. -/
def mainAfterLLM (raw : String) (apply : Bool)
    (ec : Nat → List String → Int) : MainResult :=
  let block := extract_bash_block raw
  if block = "" then .extractFailure raw
  else
    match parse_commands block with
    | .error e => .parseFailure e
    | .ok cmds => .executed (run_commands cmds apply ec)

/-- Process exit status of a `MainResult` (`none` = `main` keeps going and
later finishes normally). -/
def mainExitCode : MainResult → Option Int
  | .extractFailure _ => some 1
  | .parseFailure _ => some 1
  | .executed r => r.exitStatus

/-- The extractor as the amended claim C2 describes it: only the first
fenced block is ever considered; its trimmed joined body is the result
when its tag is recognized, and the result is empty otherwise (in
particular when there is no fence line at all). -/
def extractFirstBlock (text : String) : String :=
  match (pySplitlines text).dropWhile (fun l => !pyStartsWith l "```") with
  | [] => ""
  | fence :: rest =>
    if fenceLangOk fence then
      pyStrip (pyJoin "\n" (rest.takeWhile (fun l => !pyStartsWith l "```")))
    else ""

/-- The Prompt Builder as claim C8 words it: each blob embedded verbatim
under its heading, with the literal placeholder substituted exactly when
the blob is empty after trimming. -/
def buildUserPromptClaim (diff_stat status diff : String) : String :=
  "# git diff --stat\n" ++
  (if pyStrip diff_stat = "" then "(no diff stat)" else diff_stat) ++
  "\n\n# git status --short\n" ++
  (if pyStrip status = "" then "(no status)" else status) ++
  "\n\n# git diff (images/binaries may be excluded)\n" ++
  (if pyStrip diff = "" then "(no textual diff)" else diff) ++
  "\n\n# TASK\nBased on the changes above, propose git add/rm/mv and git commit commands as per the instructions."

/-- The Prompt Builder as amended: like claim C8 but each non-empty blob
is embedded stripped of leading and trailing whitespace. -/
def buildUserPromptAmended (diff_stat status diff : String) : String :=
  "# git diff --stat\n" ++
  (if pyStrip diff_stat = "" then "(no diff stat)" else pyStrip diff_stat) ++
  "\n\n# git status --short\n" ++
  (if pyStrip status = "" then "(no status)" else pyStrip status) ++
  "\n\n# git diff (images/binaries may be excluded)\n" ++
  (if pyStrip diff = "" then "(no textual diff)" else pyStrip diff) ++
  "\n\n# TASK\nBased on the changes above, propose git add/rm/mv and git commit commands as per the instructions."

/-- Number of tokens still guaranteed to be emitted from a machine state. -/
def pend : SState → List Char → Bool → Nat
  | .between, _, _ => 0
  | .word, tok, quoted => if tok ≠ [] ∨ quoted then 1 else 0
  | _, _, _ => 1

/-- States from which the machine is committed to emitting a token that
extends the current `tok`. -/
def midToken : SState → List Char → Bool → Prop
  | .between, _, _ => False
  | .word, tok, quoted => tok ≠ [] ∨ quoted = true
  | _, _, _ => True

/-- Character-level form of the rendered command line: the quoted tokens
joined by single spaces. -/
def joinSp : List (List Char) → List Char
  | [] => []
  | [t] => quoteData t
  | t :: t2 :: ts => quoteData t ++ ' ' :: joinSp (t2 :: ts)

example : shlexSplit "git add \"file one.txt\"" = .ok ["git", "add", "file one.txt"] := by decide
example : shlexSplit "git add 'x" = .error .noClosingQuote := by decide
example : shlexSplit "''x a" = .ok ["x", "a"] := by decide
example : shlexSplit "\"a\\x\\\"b\\\\c\"" = .ok ["a\\x\"b\\c"] := by decide
example : shlexQuote "a'b" = "'a'\"'\"'b'" := by decide
example : shlexQuote "" = "''" := by decide
example : shlexQuote "safe./x" = "safe./x" := by decide
example : parse_commands "#push" = .ok [["#push"]] := by decide
example : parse_commands "git add a\n\n  \ngit commit -m \"feat: x\"" =
    .ok [["git", "add", "a"], ["git", "commit", "-m", "feat: x"]] := by decide
example : shlexSplit (renderCmd ["git", "commit", "-m", "feat: add file"]) =
    .ok ["git", "commit", "-m", "feat: add file"] := by decide

example : ("" : String).data = [] := rfl
example : String.mk ([] : List Char) = "" := rfl

lemma dropWhile_head_false {α : Type} {p : α → Bool} {l : List α} {c : α}
    {cs : List α} (h : l.dropWhile p = c :: cs) : p c = false := by
  have h2 := List.head?_dropWhile_not p l
  rw [h] at h2
  simpa using h2

lemma pyStripList_eq_nil_iff {l : List Char} :
    pyStripList l = [] ↔ ∀ c ∈ l, pyIsSpace c = true := by
  unfold pyStripList
  constructor
  · intro h c hc
    have h1 := List.dropWhile_eq_nil_iff.mp h
    have hsplit := List.takeWhile_append_dropWhile (p := pyIsSpace) (l := l.reverse)
    have hc' : c ∈ l.reverse := List.mem_reverse.mpr hc
    rw [← hsplit] at hc'
    rcases List.mem_append.mp hc' with h2 | h2
    · exact List.mem_takeWhile_imp h2
    · exact h1 c (List.mem_reverse.mpr h2)
  · intro h
    have h1 : l.reverse.dropWhile pyIsSpace = [] :=
      List.dropWhile_eq_nil_iff.mpr fun c hc => h c (List.mem_reverse.mp hc)
    rw [h1]
    rfl

lemma pyStrip_data (s : String) : (pyStrip s).data = pyStripList s.data := rfl

lemma strMk_eq_empty_iff {l : List Char} : String.mk l = "" ↔ l = [] := by
  constructor
  · intro h
    exact congrArg String.data h
  · intro h
    rw [h]

lemma pyStrip_eq_empty_iff {s : String} :
    pyStrip s = "" ↔ ∀ c ∈ s.data, pyIsSpace c = true := by
  rw [show pyStrip s = String.mk (pyStripList s.data) from rfl,
    strMk_eq_empty_iff]
  exact pyStripList_eq_nil_iff

lemma extractGo_skip (pre : List String)
    (h : ∀ l ∈ pre, pyStartsWith l "```" = false) (ls : List String) :
    extractGo (pre ++ ls) false false [] = extractGo ls false false [] := by
  induction pre with
  | nil => rfl
  | cons a pre ih =>
    have ha := h a (by simp)
    simp only [List.cons_append, extractGo, ha, Bool.false_eq_true,
      if_false, Bool.false_and]
    exact ih fun l hl => h l (by simp [hl])

lemma extractGo_blocked (ls : List String) (acc : List String) :
    extractGo ls true false acc = pyStrip (pyJoin "\n" acc) := by
  induction ls with
  | nil => rfl
  | cons a ls ih =>
    by_cases ha : pyStartsWith a "```" = true
    · simp [extractGo, ha]
    · simp [extractGo, ha, ih]

lemma extractGo_capture (ls : List String) (acc : List String) :
    extractGo ls true true acc =
      pyStrip (pyJoin "\n" (acc ++ ls.takeWhile fun l => !pyStartsWith l "```")) := by
  induction ls generalizing acc with
  | nil => simp [extractGo]
  | cons a ls ih =>
    by_cases ha : pyStartsWith a "```" = true
    · simp [extractGo, ha, List.takeWhile_cons, Bool.not_eq_true']
    · have hf : pyStartsWith a "```" = false := by simpa using ha
      have hn : (!pyStartsWith a "```") = true := by rw [hf]; rfl
      simp only [extractGo, ha, Bool.false_eq_true, if_false, Bool.true_and,
        if_true, List.takeWhile_cons, hn]
      rw [ih (acc ++ [a])]
      simp


lemma shlexWS_space {c : Char} (h : isShlexWS c = true) : pyIsSpace c = true := by
  have h2 : ((c = ' ' ∨ c = '\t') ∨ c = '\r') ∨ c = '\n' := by
    simpa [isShlexWS] using h
  rcases h2 with ((h1 | h1) | h1) | h1 <;> subst h1 <;> decide

lemma quoteSafe_ne {c : Char} (h : quoteSafe c = true) :
    isShlexWS c = false ∧ ¬c = '\\' ∧ ¬c = '\'' ∧ ¬c = '"' := by
  refine ⟨?_, ?_, ?_, ?_⟩
  · cases hw : isShlexWS c
    · rfl
    · have h2 : ((c = ' ' ∨ c = '\t') ∨ c = '\r') ∨ c = '\n' := by
        simpa [isShlexWS] using hw
      rcases h2 with ((h1 | h1) | h1) | h1 <;> subst h1 <;> exact absurd h (by decide)
  · intro h1; subst h1; exact absurd h (by decide)
  · intro h1; subst h1; exact absurd h (by decide)
  · intro h1; subst h1; exact absurd h (by decide)

lemma shlexRun_acc_tail (cs : List Char) :
    ∀ (st : SState) (tok : List Char) (quoted : Bool)
      (acc res : List (List Char)),
      shlexRun cs st tok quoted acc = .ok res →
      ∃ tail, res = acc.reverse ++ tail := by
  induction cs with
  | nil =>
    intro st tok quoted acc res h
    cases st <;> simp only [shlexRun] at h
    · injection h with h2
      exact ⟨[], by rw [List.append_nil, h2]⟩
    · split at h
      · injection h with h2
        exact ⟨[tok], h2.symm⟩
      · injection h with h2
        exact ⟨[], by rw [List.append_nil, h2]⟩
    · exact Except.noConfusion h
    · exact Except.noConfusion h
    · exact Except.noConfusion h
    · exact Except.noConfusion h
  | cons c cs ih =>
    intro st tok quoted acc res h
    cases st <;> simp only [shlexRun] at h
    case between =>
      split at h
      · exact ih _ _ _ _ _ h
      · split at h
        · exact ih _ _ _ _ _ h
        · split at h
          · exact ih _ _ _ _ _ h
          · split at h
            · exact ih _ _ _ _ _ h
            · exact ih _ _ _ _ _ h
    case word =>
      split at h
      · split at h
        · obtain ⟨tail, ht⟩ := ih _ _ _ _ _ h
          exact ⟨tok :: tail, by simp [ht]⟩
        · exact ih _ _ _ _ _ h
      · split at h
        · exact ih _ _ _ _ _ h
        · split at h
          · exact ih _ _ _ _ _ h
          · split at h
            · exact ih _ _ _ _ _ h
            · exact ih _ _ _ _ _ h
    case inSingle =>
      split at h
      · exact ih _ _ _ _ _ h
      · exact ih _ _ _ _ _ h
    case inDouble =>
      split at h
      · exact ih _ _ _ _ _ h
      · split at h
        · exact ih _ _ _ _ _ h
        · exact ih _ _ _ _ _ h
    case escOutside => exact ih _ _ _ _ _ h
    case escInDouble =>
      split at h
      · exact ih _ _ _ _ _ h
      · exact ih _ _ _ _ _ h


lemma shlexRun_length (cs : List Char) :
    ∀ (st : SState) (tok : List Char) (quoted : Bool)
      (acc res : List (List Char)),
      shlexRun cs st tok quoted acc = .ok res →
      acc.length + pend st tok quoted ≤ res.length := by
  induction cs with
  | nil =>
    intro st tok quoted acc res h
    cases st <;> simp only [shlexRun] at h
    · injection h with h2
      simp [pend, ← h2]
    · by_cases hq : tok ≠ [] ∨ quoted = true
      · rw [if_pos hq] at h
        injection h with h2
        simp [pend, if_pos hq, ← h2]
      · rw [if_neg hq] at h
        injection h with h2
        simp [pend, if_neg hq, ← h2]
    · exact Except.noConfusion h
    · exact Except.noConfusion h
    · exact Except.noConfusion h
    · exact Except.noConfusion h
  | cons c cs ih =>
    intro st tok quoted acc res h
    cases st <;> simp only [shlexRun] at h
    case between =>
      simp only [pend, Nat.add_zero]
      split at h
      · have := ih _ _ _ _ _ h
        simp only [pend] at this
        omega
      · split at h
        · have := ih _ _ _ _ _ h
          simp only [pend] at this
          omega
        · split at h
          · have := ih _ _ _ _ _ h
            simp only [pend] at this
            omega
          · split at h
            · have := ih _ _ _ _ _ h
              simp only [pend] at this
              omega
            · have := ih _ _ _ _ _ h
              have hne : ([c] : List Char) ≠ [] := by simp
              simp only [pend, if_pos (Or.inl hne)] at this
              omega
    case word =>
      have hgoal : pend SState.word tok quoted ≤ 1 := by
        simp only [pend]
        split <;> omega
      split at h
      · by_cases hq : tok ≠ [] ∨ quoted = true
        · rw [if_pos hq] at h
          have := ih _ _ _ _ _ h
          simp only [pend, List.length_cons] at this
          simp only [pend, if_pos hq]
          omega
        · rw [if_neg hq] at h
          have := ih _ _ _ _ _ h
          simp only [pend, if_neg hq] at this ⊢
          omega
      · split at h
        · have := ih _ _ _ _ _ h
          simp [pend] at this
          omega
        · split at h
          · have := ih _ _ _ _ _ h
            simp [pend] at this
            omega
          · split at h
            · have := ih _ _ _ _ _ h
              simp [pend] at this
              omega
            · have := ih _ _ _ _ _ h
              have hne : tok ++ [c] ≠ [] := by simp
              simp only [pend, if_pos (Or.inl hne)] at this
              omega
    case inSingle =>
      simp only [pend]
      split at h
      · have := ih _ _ _ _ _ h
        simp [pend] at this
        omega
      · have := ih _ _ _ _ _ h
        simp [pend] at this
        omega
    case inDouble =>
      simp only [pend]
      split at h
      · have := ih _ _ _ _ _ h
        simp [pend] at this
        omega
      · split at h
        · have := ih _ _ _ _ _ h
          simp [pend] at this
          omega
        · have := ih _ _ _ _ _ h
          simp [pend] at this
          omega
    case escOutside =>
      simp only [pend]
      have := ih _ _ _ _ _ h
      have hne : tok ++ [c] ≠ [] := by simp
      simp only [pend, if_pos (Or.inl hne)] at this
      omega
    case escInDouble =>
      simp only [pend]
      split at h
      · have := ih _ _ _ _ _ h
        simp [pend] at this
        omega
      · have := ih _ _ _ _ _ h
        simp [pend] at this
        omega


lemma shlexRun_first_token (cs : List Char) :
    ∀ (st : SState) (tok : List Char) (quoted : Bool)
      (acc res : List (List Char)),
      midToken st tok quoted →
      shlexRun cs st tok quoted acc = .ok res →
      ∃ u rest, res = acc.reverse ++ (tok ++ u) :: rest := by
  induction cs with
  | nil =>
    intro st tok quoted acc res hg h
    cases st <;> simp only [shlexRun] at h
    · exact absurd hg (by simp [midToken])
    · rw [if_pos (by simpa [midToken] using hg)] at h
      injection h with h2
      exact ⟨[], [], by simp [← h2]⟩
    · exact Except.noConfusion h
    · exact Except.noConfusion h
    · exact Except.noConfusion h
    · exact Except.noConfusion h
  | cons c cs ih =>
    intro st tok quoted acc res hg h
    cases st <;> simp only [shlexRun] at h
    case between => exact absurd hg (by simp [midToken])
    case word =>
      have hq : tok ≠ [] ∨ quoted = true := by simpa [midToken] using hg
      by_cases hws : isShlexWS c = true
      · rw [if_pos hws, if_pos hq] at h
        obtain ⟨tail, ht⟩ := shlexRun_acc_tail cs _ _ _ _ _ h
        exact ⟨[], tail, by simp [ht]⟩
      · rw [if_neg hws] at h
        by_cases h1 : c = '\''
        · rw [if_pos h1] at h
          exact ih _ _ _ _ _ (by simp [midToken]) h
        · rw [if_neg h1] at h
          by_cases h2 : c = '"'
          · rw [if_pos h2] at h
            exact ih _ _ _ _ _ (by simp [midToken]) h
          · rw [if_neg h2] at h
            by_cases h3 : c = '\\'
            · rw [if_pos h3] at h
              exact ih _ _ _ _ _ (by simp [midToken]) h
            · rw [if_neg h3] at h
              obtain ⟨u, rest, hu⟩ :=
                ih _ _ _ _ _ (show midToken SState.word (tok ++ [c]) quoted by
                  simp [midToken]) h
              exact ⟨c :: u, rest, by simpa using hu⟩
    case inSingle =>
      by_cases h1 : c = '\''
      · rw [if_pos h1] at h
        exact ih _ _ _ _ _ (by simp [midToken]) h
      · rw [if_neg h1] at h
        obtain ⟨u, rest, hu⟩ :=
          ih _ _ _ _ _ (show midToken SState.inSingle (tok ++ [c]) true by
            simp [midToken]) h
        exact ⟨c :: u, rest, by simpa using hu⟩
    case inDouble =>
      by_cases h1 : c = '"'
      · rw [if_pos h1] at h
        exact ih _ _ _ _ _ (by simp [midToken]) h
      · rw [if_neg h1] at h
        by_cases h2 : c = '\\'
        · rw [if_pos h2] at h
          exact ih _ _ _ _ _ (by simp [midToken]) h
        · rw [if_neg h2] at h
          obtain ⟨u, rest, hu⟩ :=
            ih _ _ _ _ _ (show midToken SState.inDouble (tok ++ [c]) true by
              simp [midToken]) h
          exact ⟨c :: u, rest, by simpa using hu⟩
    case escOutside =>
      obtain ⟨u, rest, hu⟩ :=
        ih _ _ _ _ _ (show midToken SState.word (tok ++ [c]) quoted by
          simp [midToken]) h
      exact ⟨c :: u, rest, by simpa using hu⟩
    case escInDouble =>
      by_cases h1 : c = '\\' ∨ c = '"'
      · rw [if_pos h1] at h
        obtain ⟨u, rest, hu⟩ :=
          ih _ _ _ _ _ (show midToken SState.inDouble (tok ++ [c]) quoted by
            simp [midToken]) h
        exact ⟨c :: u, rest, by simpa using hu⟩
      · rw [if_neg h1] at h
        obtain ⟨u, rest, hu⟩ :=
          ih _ _ _ _ _ (show midToken SState.inDouble (tok ++ ['\\', c]) quoted by
            simp [midToken]) h
        exact ⟨'\\' :: c :: u, rest, by simpa using hu⟩

lemma shlexRun_safe_chunk (l : List Char) :
    ∀ (cs tok : List Char) (quoted : Bool) (acc : List (List Char)),
      (∀ c ∈ l, quoteSafe c = true) →
      shlexRun (l ++ cs) .word tok quoted acc =
        shlexRun cs .word (tok ++ l) quoted acc := by
  induction l with
  | nil => intro cs tok quoted acc _; simp
  | cons c l ih =>
    intro cs tok quoted acc h
    obtain ⟨hws, hbs, hsq, hdq⟩ := quoteSafe_ne (h c (by simp))
    rw [List.cons_append,
      show shlexRun (c :: (l ++ cs)) .word tok quoted acc =
        shlexRun (l ++ cs) .word (tok ++ [c]) quoted acc from by
          simp only [shlexRun, hws, Bool.false_eq_true, if_false, if_neg hsq,
            if_neg hdq, if_neg hbs],
      ih _ _ _ _ fun x hx => h x (by simp [hx])]
    simp

lemma shlexRun_quoted_chunk (l : List Char) :
    ∀ (cs tok : List Char) (quoted : Bool) (acc : List (List Char)),
      shlexRun (escInner l ++ ('\'' :: cs)) .inSingle tok quoted acc =
        shlexRun cs .word (tok ++ l) true acc := by
  induction l with
  | nil =>
    intro cs tok quoted acc
    simp [escInner, shlexRun]
  | cons c l ih =>
    intro cs tok quoted acc
    by_cases hc : c = '\''
    · subst hc
      have step :
          shlexRun (escInner ('\'' :: l) ++ ('\'' :: cs)) .inSingle tok quoted acc =
            shlexRun (escInner l ++ ('\'' :: cs)) .inSingle (tok ++ ['\'']) true acc := by
        rw [show escInner ('\'' :: l) =
            '\'' :: '"' :: '\'' :: '"' :: '\'' :: escInner l from by simp [escInner]]
        rfl
      rw [step, ih]
      simp
    · have step :
          shlexRun (escInner (c :: l) ++ ('\'' :: cs)) .inSingle tok quoted acc =
            shlexRun (escInner l ++ ('\'' :: cs)) .inSingle (tok ++ [c]) true acc := by
        rw [show escInner (c :: l) = c :: escInner l from by simp [escInner, hc],
          List.cons_append]
        simp only [shlexRun, if_neg hc]
      rw [step, ih]
      simp

lemma shlexRun_quote_consume (t : List Char) (cs : List Char)
    (acc : List (List Char)) :
    ∃ q, (t ≠ [] ∨ q = true) ∧
      shlexRun (quoteData t ++ cs) .between [] false acc =
        shlexRun cs .word t q acc := by
  by_cases h0 : t = []
  · subst h0
    exact ⟨true, Or.inr rfl, rfl⟩
  · by_cases hsafe : t.all quoteSafe
    · refine ⟨false, Or.inl h0, ?_⟩
      rw [show quoteData t = t from by simp [quoteData, h0, hsafe]]
      cases t with
      | nil => exact absurd rfl h0
      | cons c l =>
        have hall : ∀ x ∈ c :: l, quoteSafe x = true :=
          fun x hx => List.all_eq_true.mp hsafe x hx
        obtain ⟨hws, hbs, hsq, hdq⟩ := quoteSafe_ne (hall c (by simp))
        have step : shlexRun ((c :: l) ++ cs) .between [] false acc =
            shlexRun (l ++ cs) .word [c] false acc := by
          rw [List.cons_append]
          simp only [shlexRun, hws, Bool.false_eq_true, if_false, if_neg hsq,
            if_neg hdq, if_neg hbs]
        rw [step, shlexRun_safe_chunk l cs [c] false acc
          fun x hx => hall x (by simp [hx])]
        rfl
    · refine ⟨true, Or.inr rfl, ?_⟩
      rw [show quoteData t = '\'' :: (escInner t ++ ['\'']) from by
        simp [quoteData, h0, hsafe]]
      have step :
          shlexRun (('\'' :: (escInner t ++ ['\''])) ++ cs) .between [] false acc =
            shlexRun ((escInner t ++ ['\'']) ++ cs) .inSingle [] false acc := rfl
      rw [step, List.append_assoc, List.singleton_append, shlexRun_quoted_chunk]
      simp

lemma strMk_data (s : String) : String.mk s.data = s := rfl


lemma shlexRun_tokens (ts : List (List Char)) :
    ∀ acc, shlexRun (joinSp ts) .between [] false acc = .ok (acc.reverse ++ ts) := by
  induction ts with
  | nil => intro acc; simp [joinSp, shlexRun]
  | cons t ts ih =>
    intro acc
    cases ts with
    | nil =>
      obtain ⟨q, hq, hrun⟩ := shlexRun_quote_consume t [] acc
      rw [show joinSp [t] = quoteData t from rfl,
        show quoteData t = quoteData t ++ [] from by simp, hrun]
      simp only [shlexRun]
      rw [if_pos (by simpa using hq)]
    | cons t2 ts2 =>
      obtain ⟨q, hq, hrun⟩ := shlexRun_quote_consume t (' ' :: joinSp (t2 :: ts2)) acc
      rw [show joinSp (t :: t2 :: ts2) = quoteData t ++ ' ' :: joinSp (t2 :: ts2) from rfl,
        hrun]
      have step : shlexRun (' ' :: joinSp (t2 :: ts2)) .word t q acc =
          shlexRun (joinSp (t2 :: ts2)) .between [] false (t :: acc) := by
        simp only [shlexRun]
        rw [if_pos (show isShlexWS ' ' = true from rfl),
          if_pos (by simpa using hq)]
      rw [step, ih (t :: acc)]
      simp

lemma pyJoin_quote_data (cmd : List String) :
    (pyJoin " " (cmd.map shlexQuote)).data = joinSp (cmd.map String.data) := by
  induction cmd with
  | nil => rfl
  | cons x xs ih =>
    cases xs with
    | nil => rfl
    | cons y ys =>
      rw [show pyJoin " " ((x :: y :: ys).map shlexQuote) =
          shlexQuote x ++ " " ++ pyJoin " " ((y :: ys).map shlexQuote) from rfl]
      rw [show ((x :: y :: ys).map String.data) = x.data :: (y :: ys).map String.data
          from rfl,
        show joinSp (x.data :: (y :: ys).map String.data) =
          quoteData x.data ++ ' ' :: joinSp ((y :: ys).map String.data) from by
          cases ys <;> rfl]
      rw [String.data_append, String.data_append, ih,
        show (" " : String).data = [' '] from by decide, List.append_assoc]
      rfl

lemma shlexRun_step_ne_nil {c : Char} {cs : List Char} {toks : List (List Char)}
    (hws : isShlexWS c = false)
    (h : shlexRun (c :: cs) .between [] false [] = .ok toks) :
    1 ≤ toks.length := by
  by_cases hb : c = '\\'
  · subst hb
    rw [show shlexRun ('\\' :: cs) .between [] false [] =
        shlexRun cs .escOutside [] false [] from rfl] at h
    have h2 := shlexRun_length cs .escOutside [] false [] toks h
    simpa [pend] using h2
  · by_cases h1 : c = '\''
    · subst h1
      rw [show shlexRun ('\'' :: cs) .between [] false [] =
          shlexRun cs .inSingle [] false [] from rfl] at h
      have h2 := shlexRun_length cs .inSingle [] false [] toks h
      simpa [pend] using h2
    · by_cases h2 : c = '"'
      · subst h2
        rw [show shlexRun ('"' :: cs) .between [] false [] =
            shlexRun cs .inDouble [] false [] from rfl] at h
        have h3 := shlexRun_length cs .inDouble [] false [] toks h
        simpa [pend] using h3
      · rw [show shlexRun (c :: cs) .between [] false [] =
            shlexRun cs .word [c] false [] from by
            simp only [shlexRun, hws, Bool.false_eq_true, if_false, if_neg hb,
              if_neg h1, if_neg h2]] at h
        have h3 := shlexRun_length cs .word [c] false [] toks h
        have hne : ([c] : List Char) ≠ [] := by simp
        simp only [pend, if_pos (Or.inl hne), List.length_nil] at h3
        omega

lemma shlexSplit_pyStrip_ne_nil {raw : String} (hne : pyStrip raw ≠ "")
    {cmds : List String} (hok : shlexSplit (pyStrip raw) = .ok cmds) :
    cmds ≠ [] := by
  obtain ⟨c, cs, hdata⟩ : ∃ c cs, (pyStrip raw).data = c :: cs := by
    cases hd : (pyStrip raw).data with
    | nil =>
      exact absurd (by rw [← strMk_data (pyStrip raw), hd]) hne
    | cons c cs => exact ⟨c, cs, rfl⟩
  have hns : pyIsSpace c = false := dropWhile_head_false hdata
  have hws : isShlexWS c = false := by
    cases hw : isShlexWS c
    · rfl
    · rw [shlexWS_space hw] at hns
      exact absurd hns (by simp)
  unfold shlexSplit at hok
  rw [hdata] at hok
  split at hok
  · exact Except.noConfusion hok
  · rename_i toks heq
    injection hok with h2
    have hlen := shlexRun_step_ne_nil hws heq
    intro hnil
    rw [hnil] at h2
    have hl := congrArg List.length h2
    simp only [List.length_map, List.length_nil] at hl
    omega

lemma parseGo_error (raws : List String) :
    ∀ acc, (∃ raw ∈ raws, shlexSplit (pyStrip raw) = .error .noClosingQuote) →
      ∃ e, parseGo raws acc = .error e := by
  induction raws with
  | nil =>
    intro acc h
    obtain ⟨raw, hmem, _⟩ := h
    exact absurd hmem (by simp)
  | cons r rest ih =>
    intro acc h
    obtain ⟨raw, hmem, herr⟩ := h
    by_cases hempty : pyStrip r = ""
    · have hray : raw ∈ rest := by
        rcases List.mem_cons.mp hmem with h1 | h1
        · subst h1
          rw [hempty] at herr
          exact absurd herr (by simp [shlexSplit, shlexRun])
        · exact h1
      obtain ⟨e, he⟩ := ih acc ⟨raw, hray, herr⟩
      refine ⟨e, ?_⟩
      simp only [parseGo, if_pos hempty]
      exact he
    · cases hs : shlexSplit (pyStrip r) with
      | error e =>
        refine ⟨e, ?_⟩
        simp only [parseGo, if_neg hempty]
        rw [hs]
      | ok cmd =>
        have hray : raw ∈ rest := by
          rcases List.mem_cons.mp hmem with h1 | h1
          · subst h1
            rw [herr] at hs
            exact Except.noConfusion hs
          · exact h1
        obtain ⟨e, he⟩ := ih (cmd :: acc) ⟨raw, hray, herr⟩
        refine ⟨e, ?_⟩
        simp only [parseGo, if_neg hempty]
        rw [hs]
        exact he

lemma parseGo_ne_nil (raws : List String) :
    ∀ (acc : List (List String)) (cmds : List (List String)),
      parseGo raws acc = .ok cmds → (∀ v ∈ acc, v ≠ []) →
      ∀ v ∈ cmds, v ≠ [] := by
  induction raws with
  | nil =>
    intro acc cmds h hacc v hv
    simp only [parseGo] at h
    injection h with h2
    rw [← h2] at hv
    exact hacc v (List.mem_reverse.mp hv)
  | cons r rest ih =>
    intro acc cmds h hacc
    simp only [parseGo] at h
    by_cases hempty : pyStrip r = ""
    · rw [if_pos hempty] at h
      exact ih _ _ h hacc
    · rw [if_neg hempty] at h
      cases hs : shlexSplit (pyStrip r) with
      | error e =>
        rw [hs] at h
        exact Except.noConfusion h
      | ok cmd =>
        rw [hs] at h
        refine ih _ _ h ?_
        intro v hv
        rcases List.mem_cons.mp hv with h1 | h1
        · subst h1
          exact shlexSplit_pyStrip_ne_nil hempty hs
        · exact hacc v h1

lemma runLoop_cons_ok {p : List String} {rest : List (List String)} {k : Nat}
    {ec : Nat → List String → Int} (hp : ec k p = 0) :
    runLoop (p :: rest) k ec =
      (("+ " ++ renderCmd p) :: (runLoop rest (k + 1) ec).1,
       p :: (runLoop rest (k + 1) ec).2.1,
       (runLoop rest (k + 1) ec).2.2) := by
  simp [runLoop, hp]

lemma runLoop_failfast (pre : List (List String)) :
    ∀ (k : Nat) (c : List String) (post : List (List String))
      (ec : Nat → List String → Int),
      (∀ i, i < pre.length → ec (k + i) (pre.getD i []) = 0) →
      ec (k + pre.length) c ≠ 0 →
      runLoop (pre ++ c :: post) k ec =
        (pre.map (fun p => "+ " ++ renderCmd p) ++
          ["+ " ++ renderCmd c,
           "Command failed with exit code " ++ toString (ec (k + pre.length) c)
             ++ ". Aborting."],
         pre ++ [c], some (ec (k + pre.length) c)) := by
  induction pre with
  | nil =>
    intro k c post ec h0 hfail
    simp only [List.nil_append, runLoop, List.map_nil]
    rw [if_neg (by simpa using hfail)]
    simp
  | cons p pre ih =>
    intro k c post ec h0 hfail
    have hp : ec k p = 0 := by simpa using h0 0 (by simp)
    have hshift : ∀ i, i < pre.length → ec ((k + 1) + i) (pre.getD i []) = 0 := by
      intro i hi
      have h2 := h0 (i + 1) (by simpa using Nat.succ_lt_succ hi)
      rw [show k + (i + 1) = (k + 1) + i from by omega] at h2
      simpa [List.getD_cons_succ] using h2
    have harg : k + (p :: pre).length = (k + 1) + pre.length := by
      simp [List.length_cons]
      omega
    have hfail2 : ec ((k + 1) + pre.length) c ≠ 0 := by
      rw [← harg]
      exact hfail
    rw [show (p :: pre) ++ c :: post = p :: (pre ++ c :: post) from rfl,
      runLoop_cons_ok hp, ih (k + 1) c post ec hshift hfail2, harg]
    simp

lemma pyJoin_all_space (body : List String)
    (h : ∀ l ∈ body, ∀ c ∈ l.data, pyIsSpace c = true) :
    ∀ c ∈ (pyJoin "\n" body).data, pyIsSpace c = true := by
  induction body with
  | nil =>
    intro c hc
    rw [show pyJoin "\n" ([] : List String) = "" from rfl] at hc
    rw [show ("" : String).data = [] from rfl] at hc
    exact absurd hc (List.not_mem_nil c)
  | cons x body ih =>
    cases body with
    | nil =>
      intro c hc
      exact h x (by simp) c hc
    | cons y ys =>
      intro c hc
      rw [show pyJoin "\n" (x :: y :: ys) = x ++ "\n" ++ pyJoin "\n" (y :: ys)
          from rfl, String.data_append, String.data_append] at hc
      simp only [List.mem_append] at hc
      rcases hc with (hx | hnl) | hrest
      · exact h x (by simp) c hx
      · have hc2 : c = '\n' := by simpa using hnl
        subst hc2
        decide
      · exact ih (fun l hl => h l (by simp [hl])) c hrest

lemma strData_inj {s t : String} (h : s.data = t.data) : s = t := by
  cases s
  cases t
  exact congrArg String.mk h

lemma strAppend_assoc (a b c : String) : a ++ b ++ c = a ++ (b ++ c) :=
  strData_inj (by simp [String.data_append, List.append_assoc])


lemma extractGo_open_fence {fence : String} {rest acc : List String}
    (hfence : pyStartsWith fence "```" = true) :
    extractGo (fence :: rest) false false acc =
      extractGo rest true (fenceLangOk fence) acc := by
  simp only [extractGo, hfence, if_true, Bool.false_eq_true, if_false]

/-- Claim C1, counterexample: on a response whose first fenced block is
tagged `python` and is followed by a recognized `bash` block, the
extractor returns the empty string, not the bash block's body
"echo hi" — the unrecognized first block is not skipped-and-continued. -/
theorem c1_counterexample :
    extract_bash_block "```python\nx = 1\n```\n```bash\necho hi\n```" = "" ∧
    ("" : String) ≠ "echo hi" :=
  ⟨by decide, by decide⟩

/-- Claim C1 (amended): for every response text whose first fenced block
is tagged with an unrecognized language, the extractor captures none of
that block's lines and stops at its closing fence: the result is the
empty string, and a later recognized block is never considered. -/
theorem c1_unrecognized_first_block (text : String) (pre : List String)
    (fence : String) (rest : List String)
    (hsplit : pySplitlines text = pre ++ fence :: rest)
    (hpre : ∀ l ∈ pre, pyStartsWith l "```" = false)
    (hfence : pyStartsWith fence "```" = true)
    (hlang : fenceLangOk fence = false) :
    extract_bash_block text = "" := by
  unfold extract_bash_block
  rw [hsplit, extractGo_skip pre hpre (fence :: rest), extractGo_open_fence hfence,
    hlang, extractGo_blocked]
  decide

/-- Witness for C1 (amended) at a concrete response text. -/
theorem c1_unrecognized_first_block_w :
    extract_bash_block "```python\nprint(2)\n```\n```sh\nls -la\n```" = "" :=
  c1_unrecognized_first_block _ [] "```python"
    ["print(2)", "```", "```sh", "ls -la", "```"]
    (by decide) (by decide) (by decide) (by decide)

/-- Claim C2, counterexample: a response with an unrecognized `python`
block followed by a recognized `sh` block has "ls" as the body of its
first *recognized* fenced block, yet extraction returns the empty
string — the first recognized block is not what is returned when an
earlier unrecognized block exists. -/
theorem c2_counterexample :
    extract_bash_block "```python\nprint(1)\n```\n```sh\nls\n```" = "" ∧
    ("" : String) ≠ "ls" :=
  ⟨by decide, by decide⟩

/-- Claim C2 (amended): extraction considers only the very first fenced
block of the response.  It returns that block's trimmed joined body when
the block's tag is empty or case-insensitively bash/sh/shell (the body
running to the next fence line or the end of input), and the empty
string otherwise — in particular when the text contains no fence line at
all, or when the first block's tag is unrecognized. -/
theorem c2_first_block_only (text : String) :
    extract_bash_block text = extractFirstBlock text := by
  unfold extract_bash_block extractFirstBlock
  have hsplit := List.takeWhile_append_dropWhile
    (p := fun l => !pyStartsWith l "```") (l := pySplitlines text)
  conv_lhs => rw [← hsplit]
  rw [extractGo_skip ((pySplitlines text).takeWhile fun l => !pyStartsWith l "```")
    (fun l hl => by simpa using List.mem_takeWhile_imp hl)]
  cases hdrop : (pySplitlines text).dropWhile (fun l => !pyStartsWith l "```") with
  | nil => decide
  | cons fence rest =>
    have hfence : pyStartsWith fence "```" = true := by
      have hh := dropWhile_head_false hdrop
      simpa using hh
    rw [extractGo_open_fence hfence]
    by_cases hl : fenceLangOk fence = true
    · rw [hl, extractGo_capture]
      simp [hl]
    · have hl2 : fenceLangOk fence = false := by simpa using hl
      have hz : pyStrip (pyJoin "\n" ([] : List String)) = "" := by decide
      rw [hl2, extractGo_blocked, hz]
      simp [hl2]

/-- Claim C3: a block containing a line with an unterminated shell quote
makes the whole parse fail with a reported error (the `ValueError` from
`shlex.split` propagates); no command vectors are returned, and in
particular no partial or guessed tokenization of the bad line. -/
theorem c3_unterminated_quote_aborts (block : String)
    (h : ∃ raw ∈ pySplitlines block,
      shlexSplit (pyStrip raw) = .error .noClosingQuote) :
    ∃ e, parse_commands block = .error e := by
  unfold parse_commands
  exact parseGo_error (pySplitlines block) [] h

/-- Witness for C3 at a concrete two-line block with a bad second line. -/
theorem c3_unterminated_quote_aborts_w :
    (∃ raw ∈ pySplitlines "git add a\ngit add 'x",
      shlexSplit (pyStrip raw) = .error .noClosingQuote) ∧
    ∃ e, parse_commands "git add a\ngit add 'x" = .error e :=
  ⟨by decide, c3_unterminated_quote_aborts _ (by decide)⟩

/-- Claim C4: in apply mode, commands are invoked strictly in order; when
the command after the prefix `pre` exits non-zero, exactly `pre ++ [c]`
has been invoked (so already-executed commands are not rolled back and
nothing in `post` runs), the failure message naming the exit code is
printed, and the process exits with that code. -/
theorem c4_apply_failfast (pre : List (List String)) (c : List String)
    (post : List (List String)) (ec : Nat → List String → Int)
    (hok : ∀ i, i < pre.length → ec i (pre.getD i []) = 0)
    (hfail : ec pre.length c ≠ 0) :
    (run_commands (pre ++ c :: post) true ec).invoked = pre ++ [c] ∧
    (run_commands (pre ++ c :: post) true ec).exitStatus =
      some (ec pre.length c) ∧
    ("Command failed with exit code " ++ toString (ec pre.length c)
      ++ ". Aborting.") ∈ (run_commands (pre ++ c :: post) true ec).printed := by
  have h := runLoop_failfast pre 0 c post ec (by simpa using hok)
    (by simpa using hfail)
  simp only [Nat.zero_add] at h
  unfold run_commands
  rw [if_pos rfl, h]
  refine ⟨rfl, rfl, ?_⟩
  simp

/-- Witness for C4: three concrete commands where the second fails. -/
theorem c4_apply_failfast_w :
    (∀ i, i < ([["git", "add", "a"]] : List (List String)).length →
      (fun i (_ : List String) => if i = 1 then (5 : Int) else 0) i
        (([["git", "add", "a"]] : List (List String)).getD i []) = 0) ∧
    (run_commands [["git", "add", "a"], ["git", "commit"], ["git", "push"]] true
      (fun i _ => if i = 1 then (5 : Int) else 0)).invoked =
      [["git", "add", "a"], ["git", "commit"]] ∧
    (run_commands [["git", "add", "a"], ["git", "commit"], ["git", "push"]] true
      (fun i _ => if i = 1 then (5 : Int) else 0)).exitStatus = some 5 ∧
    ("Command failed with exit code 5. Aborting.") ∈
      (run_commands [["git", "add", "a"], ["git", "commit"], ["git", "push"]] true
        (fun i _ => if i = 1 then (5 : Int) else 0)).printed := by
  have h := c4_apply_failfast [["git", "add", "a"]] ["git", "commit"]
    [["git", "push"]] (fun i _ => if i = 1 then (5 : Int) else 0)
    (by decide) (by decide)
  exact ⟨by decide, by simpa using h.1, by simpa using h.2.1, by simpa using h.2.2⟩

/-- Claim C5: in plan mode the Execution Planner only prints the header,
the shell-quoted rendering of every command vector and the dry-run
notice; the invoked-process list is empty and no exit is taken,
whatever the plan contents and whatever the processes would return. -/
theorem c5_plan_mode_never_invokes (commands : List (List String))
    (ec : Nat → List String → Int) :
    run_commands commands false ec =
      { printed := "Proposed commands:\n" :: commands.map renderCmd ++
          ["\nDry run: not executing commands. Re-run with --apply to execute."],
        invoked := [],
        exitStatus := none } := by
  unfold run_commands
  simp

/-- Claim C6: rendering a command vector the way the Execution Planner
prints it (`shlex.quote` each token, join with spaces) and re-tokenizing
that line with the parser's shell-word rules (`shlex.split`) returns
exactly the original vector, for tokens without embedded newlines. -/
theorem c6_render_parse_roundtrip (cmd : List String)
    (_hnl : ∀ t ∈ cmd, t.data.contains '\n' = false) :
    shlexSplit (renderCmd cmd) = .ok cmd := by
  unfold shlexSplit renderCmd
  rw [pyJoin_quote_data, shlexRun_tokens (cmd.map String.data) []]
  show Except.ok ((cmd.map String.data).map fun t => String.mk t) = Except.ok cmd
  rw [List.map_map,
    show ((fun t => String.mk t) ∘ String.data) = id from funext strMk_data,
    List.map_id]

/-- Witness for C6 at a vector with spaces and a colon in one token. -/
theorem c6_render_parse_roundtrip_w :
    (∀ t ∈ (["git", "commit", "-m", "feat: add file"] : List String),
      t.data.contains '\n' = false) ∧
    shlexSplit (renderCmd ["git", "commit", "-m", "feat: add file"]) =
      .ok ["git", "commit", "-m", "feat: add file"] :=
  ⟨by decide, c6_render_parse_roundtrip _ (by decide)⟩

/-- Claim C7: every command vector produced by a successful parse is
non-empty — blank lines are dropped before tokenization and a surviving
line always yields at least one token. -/
theorem c7_vectors_nonempty (block : String) (cmds : List (List String))
    (h : parse_commands block = .ok cmds) :
    ∀ cmd ∈ cmds, cmd ≠ [] := by
  unfold parse_commands at h
  exact parseGo_ne_nil (pySplitlines block) [] cmds h (by simp)

/-- Witness for C7 on a block with blank and whitespace-only lines and a
quoted-empty-token line. -/
theorem c7_vectors_nonempty_w :
    parse_commands "git add a\n\n   \n''" = .ok [["git", "add", "a"], [""]] ∧
    ∀ cmd ∈ ([["git", "add", "a"], [""]] : List (List String)), cmd ≠ [] :=
  ⟨by decide, c7_vectors_nonempty "git add a\n\n   \n''"
    [["git", "add", "a"], [""]] (by decide)⟩

/-- Claim C8, counterexample: the Prompt Builder does not embed blobs
verbatim — a diff-stat blob with surrounding whitespace is embedded
stripped, so the built prompt differs from the claim's verbatim-embedding
reading at this input. -/
theorem c8_counterexample :
    build_user_prompt " x " "s" "d" ≠ buildUserPromptClaim " x " "s" "d" := by
  decide

/-- Claim C8 (amended): the Prompt Builder is a pure function of the
three blobs that embeds each blob stripped of leading and trailing
whitespace (no escaping inside the blob) under its labeled heading, and
substitutes the literal placeholder exactly when the blob is empty after
trimming. -/
theorem c8_prompt_builder_amended (diff_stat status diff : String) :
    build_user_prompt diff_stat status diff =
      buildUserPromptAmended diff_stat status diff := by
  unfold build_user_prompt buildUserPromptAmended
  simp only [pyJoin]
  apply strData_inj
  simp only [String.data_append]
  simp [List.append_assoc]

/-- Claim C9: when the first recognized fenced block has an empty or
whitespace-only body, extraction returns the empty string and `main`
takes the extraction-failure path — it reports the failure with the raw
model output and exits with status 1 even though a recognized fenced
block was present. -/
theorem c9_blank_recognized_block_fails (text : String) (pre : List String)
    (fence : String) (body rest : List String)
    (hsplit : pySplitlines text = pre ++ fence :: (body ++ rest))
    (hpre : ∀ l ∈ pre, pyStartsWith l "```" = false)
    (hfence : pyStartsWith fence "```" = true)
    (hlang : fenceLangOk fence = true)
    (hbody : (body ++ rest).takeWhile (fun l => !pyStartsWith l "```") = body)
    (hblank : ∀ l ∈ body, pyStrip l = "") :
    extract_bash_block text = "" ∧
    ∀ (apply : Bool) (ec : Nat → List String → Int),
      mainAfterLLM text apply ec = .extractFailure text ∧
      mainExitCode (mainAfterLLM text apply ec) = some 1 := by
  have hext : extract_bash_block text = "" := by
    unfold extract_bash_block
    rw [hsplit, extractGo_skip pre hpre (fence :: (body ++ rest)),
      extractGo_open_fence hfence, hlang, extractGo_capture, hbody,
      List.nil_append, pyStrip_eq_empty_iff]
    exact pyJoin_all_space body fun l hl => pyStrip_eq_empty_iff.mp (hblank l hl)
  refine ⟨hext, fun apply ec => ?_⟩
  have hmain : mainAfterLLM text apply ec = .extractFailure text := by
    unfold mainAfterLLM
    rw [hext]
    rfl
  exact ⟨hmain, by rw [hmain]; rfl⟩

/-- Witness for C9 at a bash block whose body is a whitespace-only line. -/
theorem c9_blank_recognized_block_fails_w :
    extract_bash_block "```bash\n   \n```" = "" ∧
    mainAfterLLM "```bash\n   \n```" true (fun _ _ => 0) =
      .extractFailure "```bash\n   \n```" ∧
    mainExitCode (mainAfterLLM "```bash\n   \n```" true (fun _ _ => 0)) =
      some 1 := by
  have h := c9_blank_recognized_block_fails "```bash\n   \n```" [] "```bash"
    ["   "] ["```"] (by decide) (by decide) (by decide) (by decide)
    (by decide) (by decide)
  exact ⟨h.1, (h.2 true (fun _ _ => 0)).1, (h.2 true (fun _ _ => 0)).2⟩

/-- Claim C10, counterexample: the line "#push" begins with `#`, and the
parser yields the vector ["#push"], whose first token is "#push", not
"#" as the claim states. -/
theorem c10_counterexample :
    parse_commands "#push" = .ok [["#push"]] ∧ ("#push" : String) ≠ "#" :=
  ⟨by decide, by decide⟩

/-- Claim C10 (amended): the parser does not treat `#` as starting a
comment.  A line whose stripped form begins with `#` and that tokenizes
successfully yields a vector whose first token itself begins with `#`
(all remaining words become further tokens), and in apply mode that
vector is handed to the process runner as-is, its first token being the
program name. -/
theorem c10_hash_not_comment (line : String) (cmd : List String)
    (hhash : (pyStrip line).data.head? = some '#')
    (hok : shlexSplit (pyStrip line) = .ok cmd) :
    (∃ u rest, cmd = String.mk ('#' :: u) :: rest) ∧
    ∀ ec : Nat → List String → Int,
      (run_commands [cmd] true ec).invoked = [cmd] := by
  constructor
  · obtain ⟨cs, hdata⟩ : ∃ cs, (pyStrip line).data = '#' :: cs := by
      cases hd : (pyStrip line).data with
      | nil =>
        rw [hd] at hhash
        simp at hhash
      | cons c cs =>
        rw [hd] at hhash
        have hc : c = '#' := by simpa using hhash
        exact ⟨cs, by rw [hc]⟩
    unfold shlexSplit at hok
    rw [hdata] at hok
    rw [show shlexRun ('#' :: cs) .between [] false [] =
        shlexRun cs .word ['#'] false [] from rfl] at hok
    split at hok
    · exact Except.noConfusion hok
    · rename_i toks heq
      obtain ⟨u, rest, hres⟩ := shlexRun_first_token cs .word ['#'] false [] toks
        (by simp [midToken]) heq
      injection hok with h2
      refine ⟨u, rest.map (fun t => String.mk t), ?_⟩
      rw [← h2, hres]
      simp
  · intro ec
    unfold run_commands
    rw [if_pos rfl]
    by_cases hc : ec 0 cmd = 0
    · simp [runLoop, hc]
    · simp [runLoop, hc]

/-- Witness for C10 (amended) at the line "# git add x". -/
theorem c10_hash_not_comment_w :
    (∃ u rest, (["#", "git", "add", "x"] : List String) =
      String.mk ('#' :: u) :: rest) ∧
    (run_commands [["#", "git", "add", "x"]] true (fun _ _ => 0)).invoked =
      [["#", "git", "add", "x"]] :=
  ⟨(c10_hash_not_comment "# git add x" ["#", "git", "add", "x"]
      (by decide) (by decide)).1,
   (c10_hash_not_comment "# git add x" ["#", "git", "add", "x"]
      (by decide) (by decide)).2 (fun _ _ => 0)⟩
